import Mathlib

/-!
Shallow embedding of the Morse-code decoder pipeline from cw-decode.go
(stages: RMS tone detection, quantization, run-length encoding, unit
estimation and token classification), together with proofs settling the
frozen claims about the specification.

Machine integers: the Go program computes in int32.  Arithmetic that can
wrap is embedded on Int with an explicit reduction into the int32 range
(wrap32).  Integer division in Go truncates toward zero, embedded as
Int.tdiv; Go panics on division by zero, embedded as Option.none at the
call sites where the divisor can be zero.
-/

/-- Reduce an unbounded integer into the int32 range, the two-sided
complement wraparound Go applies to every int32 arithmetic result. -/
def wrap32 (n : Int) : Int :=
  (n + 2 ^ 31) % 2 ^ 32 - 2 ^ 31

/-- Go int32 division: truncation toward zero, with the single overflow
case (minInt32 divided by -1) wrapping back to minInt32. -/
def div32 (a b : Int) : Int :=
  wrap32 (Int.tdiv a b)

/-- The output alphabet of the decoder, from the const block of
cw-decode.go (dit, dah, endLetter, endWord, pause, noOp, cwError). -/
inductive token where
  | dit
  | dah
  | endLetter
  | endWord
  | pause
  | noOp
  | cwError
deriving DecidableEq

/-- The clamp function of cw-decode.go lines 161-186: take a normalized
duration value and return a semantic token, on the silence side or the
tone side according to the parity flag.  The float32 comparisons against
the literals 2, 5 and 8 are exact, so the argument is embedded as a
rational. -/
def clamp (x : ℚ) (silence : Bool) : token :=
  if silence then
    if x > 8 then token.pause
    else if x > 5 then token.endWord
    else if x > 2 then token.endLetter
    else token.noOp
  else
    if x > 8 then token.cwError
    else if x > 5 then token.cwError
    else if x > 2 then token.dah
    else token.dit

/-- The normalization expression of cw-decode.go line 210:
norm := float32(group[i] / unitDuration).  The division is int32 division
(truncating), performed before the conversion to float32; converting the
resulting int32 quotient to float32 and comparing it against 2, 5 and 8
in clamp is exact (rounding an integer to float32 never moves it across
those thresholds), so the handed-over value is embedded as the rational
equal to the int32 quotient. -/
def norm32 (d u : Int) : ℚ :=
  ((div32 d u : Int) : ℚ)

/-- Claim C5: clamp maps a normalized ratio x on the silence side to
noOp for x ≤ 2, endLetter for 2 < x ≤ 5, endWord for 5 < x ≤ 8 and
pause for x > 8, and on the tone side to dit for x ≤ 2, dah for
2 < x ≤ 5 and cwError for every x > 5; in particular x = 2 falls in the
lower band and x = 8 yields endWord, not pause. -/
theorem clamp_band_table (x : ℚ) :
    (x ≤ 2 → clamp x true = token.noOp) ∧
    (2 < x → x ≤ 5 → clamp x true = token.endLetter) ∧
    (5 < x → x ≤ 8 → clamp x true = token.endWord) ∧
    (8 < x → clamp x true = token.pause) ∧
    (x ≤ 2 → clamp x false = token.dit) ∧
    (2 < x → x ≤ 5 → clamp x false = token.dah) ∧
    (5 < x → clamp x false = token.cwError) ∧
    clamp (2 : ℚ) true = token.noOp ∧
    clamp (2 : ℚ) false = token.dit ∧
    clamp (8 : ℚ) true = token.endWord := by
  refine ⟨?_, ?_, ?_, ?_, ?_, ?_, ?_, by decide, by decide, by decide⟩ <;>
    · intros
      unfold clamp
      split_ifs <;> first | rfl | linarith | simp_all

/-- Witness for clamp_band_table at the concrete ratio 3. -/
theorem clamp_band_table_witness : clamp (3 : ℚ) true = token.endLetter :=
  (clamp_band_table 3).2.1 (by norm_num) (by norm_num)

/-- Claim C1 (code bug, evaluation at the failing input): with unit
estimate 3 and measured duration 2, the Go normalization
float32(group[i] / unitDuration) performs truncating int32 division
before the float conversion and hands 0 to clamp, not the floating-point
quotient 2/3 the spec requires. -/
theorem normalize_truncates_2_over_3 :
    norm32 2 3 = 0 ∧ norm32 2 3 ≠ (2 : ℚ) / 3 := by
  have h : div32 2 3 = 0 := by decide
  unfold norm32
  rw [h]
  norm_num

/-- The run-length encoding loop of getRlePipe (cw-decode.go lines
114-133): currentState starts at false with an int32 tally of 0; an
event matching the current state increments the tally, a mismatch emits
the finished run and restarts the tally at 1 under the new state.  The
Go channel carries only the duration; the state of each emitted run is
the value of currentState at emission time, recorded here explicitly as
the first component.  At end-of-stream the loop closes the channel
without flushing the outstanding tally. -/
def rleAux (currentState : Bool) (tally : Int) : List Bool → List (Bool × Int)
  | [] => []
  | quant :: rest =>
    if quant = currentState then rleAux currentState (wrap32 (tally + 1)) rest
    else (currentState, tally) :: rleAux quant 1 rest

/-- Stage 2 of the pipeline: run-length encode a finite stream of
quantized on/off values, exactly as the goroutine of getRlePipe does. -/
def getRlePipe (quants : List Bool) : List (Bool × Int) :=
  rleAux false 0 quants

/-- The expansion the specification postulates as the inverse of the
rhythm encoder: repeat each run state for its duration, in order. -/
def expandRuns (runs : List (Bool × Int)) : List Bool :=
  (runs.map (fun r => List.replicate r.2.toNat r.1)).flatten

lemma wrap32_eq_self {n : Int} (h1 : -(2 ^ 31) ≤ n) (h2 : n < 2 ^ 31) :
    wrap32 n = n := by
  have h31 : (2 : Int) ^ 31 = 2147483648 := by norm_num
  have h32 : (2 : Int) ^ 32 = 4294967296 := by norm_num
  unfold wrap32
  rw [h31, h32] at *
  rw [Int.emod_eq_of_lt (by omega) (by omega)]
  omega

/-- The head run emitted by the encoding loop always carries the state
the loop was in when it started. -/
lemma rleAux_head_state (qs : List Bool) :
    ∀ (s : Bool) (t : Int) (r : Bool × Int),
      (rleAux s t qs).head? = some r → r.1 = s := by
  induction qs with
  | nil => intro s t r h; simp [rleAux] at h
  | cons q rest ih =>
    intro s t r h
    by_cases hq : q = s
    · rw [rleAux, if_pos hq] at h
      subst hq
      exact ih _ _ _ h
    · rw [rleAux, if_neg hq] at h
      simp only [List.head?_cons, Option.some.injEq] at h
      subst h
      rfl

lemma rleAux_chain (qs : List Bool) :
    ∀ (s : Bool) (t : Int),
      List.Chain' (fun a b => a.1 ≠ b.1) (rleAux s t qs) := by
  induction qs with
  | nil => intro s t; simp [rleAux]
  | cons q rest ih =>
    intro s t
    by_cases hq : q = s
    · rw [rleAux, if_pos hq]
      exact ih _ _
    · rw [rleAux, if_neg hq]
      refine List.chain'_cons'.mpr ⟨?_, ih _ _⟩
      intro y hy
      have := rleAux_head_state rest q 1 y hy
      simp only [this]
      intro hcon
      exact hq hcon.symm

/-- Claim C6: for every boolean input stream, the runs emitted by the
rhythm encoder strictly alternate state: no two adjacent emitted runs
carry the same boolean value. -/
theorem rle_runs_alternate (qs : List Bool) :
    List.Chain' (fun a b => a.1 ≠ b.1) (getRlePipe qs) :=
  rleAux_chain qs false 0

/-- Every run the loop emits from a tally that is already at least 1
has strictly positive duration, as long as the remaining input cannot
wrap the int32 tally. -/
lemma rleAux_pos (qs : List Bool) :
    ∀ (s : Bool) (t : Int), 1 ≤ t → t + qs.length < 2 ^ 31 →
      ∀ r ∈ rleAux s t qs, 0 < r.2 := by
  induction qs with
  | nil => intro s t _ _ r hr; simp [rleAux] at hr
  | cons q rest ih =>
    intro s t ht hlen r hr
    have hlen' : (rest.length : Int) + 1 = ((q :: rest).length : Int) := by
      simp
    by_cases hq : q = s
    · rw [rleAux, if_pos hq] at hr
      have hw : wrap32 (t + 1) = t + 1 := by
        apply wrap32_eq_self <;> omega
      rw [hw] at hr
      exact ih _ _ (by omega) (by omega) r hr
    · rw [rleAux, if_neg hq] at hr
      rcases List.mem_cons.mp hr with hr1 | hr1
      · rw [hr1]
        dsimp
        omega
      · exact ih _ _ (by omega) (by omega) r hr1

/-- Claim C7 counterexample: on the stream [true], whose first event
differs from the initial state of the encoder, the first emitted run is
(false, 0) — its duration is not strictly positive. -/
theorem rle_first_run_zero :
    getRlePipe [true] = [(false, 0)] ∧ ¬(∀ r ∈ getRlePipe [true], 0 < r.2) := by
  constructor <;> decide

/-- Claim C7 (amended): for input streams of fewer than 2^31 events
(within int32 tally range), every emitted run after the first has
strictly positive duration, and the first emitted run has duration 0
exactly when the first event of the stream is true, i.e. differs from
the initial state false of the encoder. -/
theorem rle_run_durations (qs : List Bool) (h : (qs.length : Int) < 2 ^ 31) :
    (∀ r ∈ (getRlePipe qs).tail, 0 < r.2) ∧
    (∀ r, (getRlePipe qs).head? = some r → (r.2 = 0 ↔ qs.head? = some true)) := by
  match qs with
  | [] => exact ⟨by simp [getRlePipe, rleAux], by simp [getRlePipe, rleAux]⟩
  | true :: rest =>
    have hlen : (rest.length : Int) + 1 = ((true :: rest).length : Int) := by simp
    have hrle : getRlePipe (true :: rest) = (false, 0) :: rleAux true 1 rest := by
      simp [getRlePipe, rleAux]
    refine ⟨?_, ?_⟩
    · rw [hrle]
      intro r hr
      exact rleAux_pos rest true 1 le_rfl (by omega) r hr
    · rw [hrle]
      intro r hr
      simp at hr
      simp [← hr]
  | false :: rest =>
    have hlen : (rest.length : Int) + 1 = ((false :: rest).length : Int) := by simp
    have hw : wrap32 1 = 1 := by decide
    have hrle : getRlePipe (false :: rest) = rleAux false 1 rest := by
      simp [getRlePipe, rleAux, hw]
    have hpos : ∀ r ∈ rleAux false 1 rest, 0 < r.2 :=
      fun r hr => rleAux_pos rest false 1 le_rfl (by omega) r hr
    refine ⟨?_, ?_⟩
    · rw [hrle]
      intro r hr
      exact hpos r (List.mem_of_mem_tail hr)
    · rw [hrle]
      intro r hr
      have hmem : r ∈ rleAux false 1 rest := by
        cases hlist : rleAux false 1 rest with
        | nil => rw [hlist] at hr; simp at hr
        | cons a l => rw [hlist] at hr; simp at hr; simp [hlist, hr]
      constructor
      · intro h0
        have := hpos r hmem
        omega
      · intro hcon
        simp at hcon

/-- The (state, tally) pair the encoding loop holds when the input is
exhausted — the run the Go code silently drops at end-of-stream instead
of flushing it. -/
def rleFinal (currentState : Bool) (tally : Int) : List Bool → Bool × Int
  | [] => (currentState, tally)
  | quant :: rest =>
    if quant = currentState then rleFinal currentState (wrap32 (tally + 1)) rest
    else rleFinal quant 1 rest

lemma expandRuns_cons (s : Bool) (t : Int) (l : List (Bool × Int)) :
    expandRuns ((s, t) :: l) = List.replicate t.toNat s ++ expandRuns l := by
  simp [expandRuns]

/-- Supporting lemma: appending the outstanding final run to the runs
the loop emits expands back to exactly the unconsumed input prefixed by
the tally already accumulated.  So the encoding loses precisely the
final run and nothing else. -/
lemma rleAux_expand_flush (qs : List Bool) :
    ∀ (s : Bool) (t : Int), 0 ≤ t → t + qs.length < 2 ^ 31 →
      expandRuns (rleAux s t qs)
          ++ List.replicate (rleFinal s t qs).2.toNat (rleFinal s t qs).1
        = List.replicate t.toNat s ++ qs := by
  induction qs with
  | nil =>
    intro s t _ _
    simp [rleAux, rleFinal, expandRuns]
  | cons q rest ih =>
    intro s t ht hlen
    have hlen' : (rest.length : Int) + 1 = ((q :: rest).length : Int) := by simp
    by_cases hq : q = s
    · rw [rleAux, if_pos hq, rleFinal, if_pos hq]
      have hw : wrap32 (t + 1) = t + 1 := by
        apply wrap32_eq_self <;> omega
      rw [hw]
      rw [ih s (t + 1) (by omega) (by omega)]
      have htn : (t + 1).toNat = t.toNat + 1 := by omega
      rw [htn, List.replicate_succ', hq]
      simp
    · rw [rleAux, if_neg hq, rleFinal, if_neg hq, expandRuns_cons]
      rw [List.append_assoc, ih q 1 (by omega) (by omega)]
      simp

/-- Claim C3 (code bug, evaluation at the failing input): at
end-of-stream the outstanding tally is not flushed; on the input
[false] the encoder emits no runs at all, so the expansion of the
emitted runs is empty and does not reproduce the input (the emitted
durations sum to 0, not to the input length 1). -/
theorem rle_no_flush_at_eos :
    getRlePipe [false] = [] ∧ expandRuns (getRlePipe [false]) ≠ [false] := by
  constructor <;> decide

/-- Ascending sort of an int32 slice, the effect of
sort.Sort(byInt32(group)) with the Less method of cw-decode.go lines
138-142. -/
def sortInt (l : List Int) : List Int :=
  List.insertionSort (· ≤ ·) l

/-- calculateUnitDuration (cw-decode.go lines 153-156): sort the
duration group ascending and return the entry at index len/4, the
25th-percentile unit estimate.  The out-of-range index of an empty
group is embedded with default 0 (Go would panic there; all call sites
pass groups of 20). -/
def calculateUnitDuration (group : List Int) : Int :=
  (sortInt group).getD (group.length / 4) 0

lemma sortInt_sorted (l : List Int) : List.Sorted (· ≤ ·) (sortInt l) :=
  List.sorted_insertionSort _ l

lemma sortInt_perm (l : List Int) : (sortInt l).Perm l :=
  List.perm_insertionSort _ l

/-- Sorting commutes with scaling every element by a positive
constant. -/
lemma sortInt_map_mul_left (c : Int) (hc : 0 < c) (l : List Int) :
    sortInt (l.map (fun d => c * d)) = (sortInt l).map (fun d => c * d) := by
  apply List.eq_of_perm_of_sorted (r := (· ≤ ·))
  · exact (sortInt_perm _).trans ((sortInt_perm l).symm.map _)
  · exact sortInt_sorted _
  · exact List.Pairwise.map _
      (fun a b hab => mul_le_mul_of_nonneg_left hab hc.le) (sortInt_sorted l)

lemma getD_map_mul (c : Int) (l : List Int) (n : Nat) :
    (l.map (fun d => c * d)).getD n 0 = c * l.getD n 0 := by
  by_cases h : n < l.length
  · rw [List.getD_eq_getElem _ _ (by simpa using h),
      List.getD_eq_getElem _ _ h, List.getElem_map]
  · rw [List.getD_eq_default _ _ (by simpa using not_lt.mp h),
      List.getD_eq_default _ _ (not_lt.mp h)]
    ring

/-- Claim C8: the 25th-percentile unit estimate of a non-empty group is
invariant under scaling every duration by a positive constant c, in the
sense that the estimate of the scaled group is c times the estimate of
the group. -/
theorem calculateUnitDuration_scale (g : List Int) (c : Int)
    (_hg : g ≠ []) (hc : 0 < c) :
    calculateUnitDuration (g.map (fun d => c * d)) =
      c * calculateUnitDuration g := by
  unfold calculateUnitDuration
  rw [sortInt_map_mul_left c hc, List.length_map]
  exact getD_map_mul c (sortInt g) _

/-- Witness for calculateUnitDuration_scale: the group [3, 1, 2, 4]
scaled by 2. -/
theorem calculateUnitDuration_scale_witness :
    calculateUnitDuration (List.map (fun d => 2 * d) [3, 1, 2, 4]) =
      2 * calculateUnitDuration [3, 1, 2, 4] :=
  calculateUnitDuration_scale [3, 1, 2, 4] 2 (by decide) (by decide)

/-- One full window of the quantizer loop (cw-decode.go lines 67-95):
max and min start at 0 and are updated by the comparisons amp > max and
amp < min over the amplitudes of the window (so min never rises above 0
and max never falls below 0); the discriminator is (max - min) / 2 in
int32 arithmetic, and each amplitude of the window maps to the boolean
amplitude ≥ discriminator. -/
def quantizeWindow (group : List Int) : List Bool :=
  let mx := group.foldl (fun m amp => if amp > m then amp else m) 0
  let mn := group.foldl (fun m amp => if amp < m then amp else m) 0
  let middle := Int.tdiv (wrap32 (mx - mn)) 2
  group.map (fun amp => decide (amp ≥ middle))

/-- The buffering loop of the quantizer: collect amplitudes into a
group of 100, emit the quantized window when full, reset, and drop a
trailing group of fewer than 100 amplitudes at end-of-stream. -/
def quantizerAux : List Int → List Int → List Bool
  | _, [] => []
  | group, amp :: rest =>
    if (group ++ [amp]).length = 100 then
      quantizeWindow (group ++ [amp]) ++ quantizerAux [] rest
    else
      quantizerAux (group ++ [amp]) rest

/-- Stage 1 quantization: amplitudes in, on/off decisions out. -/
def quantizer (amplitudes : List Int) : List Bool :=
  quantizerAux [] amplitudes

set_option maxRecDepth 8000 in
/-- Claim C2 (code bug, evaluation at the failing input): on the window
consisting of one amplitude 6 followed by 99 amplitudes 10, the code
quantizes the amplitude 6 as true, because its discriminator is
(max - min) / 2 = (10 - 0) / 2 = 5 — min is anchored at 0 rather than
the window minimum 6 and the window minimum is never added back;  the
claimed discriminator min + (max - min) / 2 = 6 + 2 = 8 classifies the
same amplitude as false. -/
theorem quantizer_discriminator_bug :
    (quantizer ((6 : Int) :: List.replicate 99 10)).head? = some true ∧
    ¬(6 : Int) ≥ 6 + (10 - 6) / 2 := by
  constructor <;> decide

/-- Output length of the buffering loop: 100 booleans per completed
window, nothing for the trailing partial group. -/
lemma quantizerAux_length (amps : List Int) :
    ∀ group : List Int, group.length < 100 →
      (quantizerAux group amps).length =
        100 * ((group.length + amps.length) / 100) := by
  induction amps with
  | nil =>
    intro group hlt
    simp only [quantizerAux, List.length_nil]
    omega
  | cons amp rest ih =>
    intro group hlt
    rw [quantizerAux]
    by_cases h : (group ++ [amp]).length = 100
    · rw [if_pos h]
      have hw : (quantizeWindow (group ++ [amp])).length = 100 := by
        unfold quantizeWindow
        simpa using h
      rw [List.length_append, hw, ih [] (by simp)]
      simp only [List.length_append, List.length_cons, List.length_nil] at h
      simp only [List.length_nil, List.length_cons]
      omega
    · rw [if_neg h]
      have hlt2 : (group ++ [amp]).length < 100 := by
        simp only [List.length_append, List.length_cons, List.length_nil] at h ⊢
        omega
      rw [ih (group ++ [amp]) hlt2]
      simp only [List.length_append, List.length_cons, List.length_nil]
      omega

/-- The normalize-and-clamp loop over one analysis group (cw-decode.go
lines 208-213): the parity flag starts at tone (silence = false) and
toggles after every duration; each duration is divided by the unit in
int32 arithmetic and clamped. -/
def clampGroup : List Int → Bool → Int → List token
  | [], _, _ => []
  | d :: rest, silence, unitDuration =>
    clamp (norm32 d unitDuration) silence :: clampGroup rest (!silence) unitDuration

/-- Classification of one full analysis group of 20 durations (the body
of the if seen == 20 block of getTokenPipe, cw-decode.go lines
201-214).  calculateUnitDuration sorts the group slice in place
(sort.Sort mutates its argument array), so the subsequent
normalize-and-clamp loop iterates over the sorted durations, not the
original order.  When the unit estimate is 0 the int32 division
group[i] / unitDuration is a run-time panic in Go, embedded as none. -/
def tokensOfGroup (group : List Int) : Option (List token) :=
  let unitDuration := calculateUnitDuration group
  if unitDuration = 0 then none
  else some (clampGroup (sortInt group) false unitDuration)

/-- The buffering loop of getTokenPipe: collect durations into groups
of 20, classify each full group, and drop a trailing group of fewer
than 20 durations at end-of-stream. -/
def getTokenPipeAux : List Int → List Int → Option (List token)
  | _, [] => some []
  | group, duration :: rest =>
    if (group ++ [duration]).length = 20 then
      match tokensOfGroup (group ++ [duration]), getTokenPipeAux [] rest with
      | some ts, some rest' => some (ts ++ rest')
      | _, _ => none
    else
      getTokenPipeAux (group ++ [duration]) rest

/-- Stage 3 of the pipeline: duration events in, semantic tokens out. -/
def getTokenPipe (durations : List Int) : Option (List token) :=
  getTokenPipeAux [] durations

set_option maxRecDepth 8000 in
/-- Claim C4 (code bug, evaluation at the failing input): for the
20-duration group starting [1,1,3,3,7,1,3,3] (padded with twelve 1s so
that the 25th-percentile unit estimate is 1), the first eight emitted
tokens are dit, noOp, dit, noOp, dit, noOp, dit, noOp — the clamp loop
runs over the group sorted in place by calculateUnitDuration — and not
the sequence dit, noOp, dah, endLetter, cwError, noOp, dah, endLetter
the claim derives from the original order. -/
theorem tokens_come_from_sorted_group :
    (getTokenPipe [1, 1, 3, 3, 7, 1, 3, 3, 1, 1, 1, 1, 1, 1, 1, 1, 1, 1, 1, 1]).map
        (fun ts => ts.take 8) =
      some [token.dit, token.noOp, token.dit, token.noOp,
        token.dit, token.noOp, token.dit, token.noOp] ∧
    [token.dit, token.noOp, token.dit, token.noOp,
        token.dit, token.noOp, token.dit, token.noOp] ≠
      [token.dit, token.noOp, token.dah, token.endLetter,
        token.cwError, token.noOp, token.dah, token.endLetter] := by
  constructor <;> decide

lemma clampGroup_length (l : List Int) :
    ∀ (silence : Bool) (u : Int), (clampGroup l silence u).length = l.length := by
  induction l with
  | nil => intro silence u; rfl
  | cons d rest ih =>
    intro silence u
    simp [clampGroup, ih]

lemma tokensOfGroup_length (g : List Int) (ts : List token)
    (h : tokensOfGroup g = some ts) : ts.length = g.length := by
  unfold tokensOfGroup at h
  dsimp only at h
  split_ifs at h
  simp only [Option.some.injEq] at h
  rw [← h, clampGroup_length]
  exact (sortInt_perm g).length_eq

/-- Output length of the token buffering loop: 20 tokens per completed
group (when no group panics), nothing for the trailing partial
group. -/
lemma getTokenPipeAux_length (ds : List Int) :
    ∀ (group : List Int) (ts : List token), group.length < 20 →
      getTokenPipeAux group ds = some ts →
      ts.length = 20 * ((group.length + ds.length) / 20) := by
  induction ds with
  | nil =>
    intro group ts hlt h
    simp only [getTokenPipeAux, Option.some.injEq] at h
    rw [← h]
    simp only [List.length_nil]
    omega
  | cons d rest ih =>
    intro group ts hlt h
    rw [getTokenPipeAux] at h
    by_cases hg : (group ++ [d]).length = 20
    · rw [if_pos hg] at h
      cases h1 : tokensOfGroup (group ++ [d]) with
      | none => rw [h1] at h; simp at h
      | some ts1 =>
        cases h2 : getTokenPipeAux [] rest with
        | none => rw [h1, h2] at h; simp at h
        | some ts2 =>
          rw [h1, h2] at h
          simp only [Option.some.injEq] at h
          have hl1 : ts1.length = 20 := by
            rw [tokensOfGroup_length _ _ h1]; exact hg
          have hl2 : ts2.length = 20 * ((rest.length : Nat) / 20) := by
            have := ih [] ts2 (by simp) h2
            simpa using this
          rw [← h, List.length_append, hl1, hl2]
          simp only [List.length_append, List.length_cons, List.length_nil] at hg
          simp only [List.length_cons]
          omega
    · rw [if_neg hg] at h
      have hlt2 : (group ++ [d]).length < 20 := by
        simp only [List.length_append, List.length_cons, List.length_nil] at hg ⊢
        omega
      have := ih (group ++ [d]) ts hlt2 h
      rw [this]
      simp only [List.length_append, List.length_cons, List.length_nil]
      omega

set_option maxRecDepth 8000 in
/-- Claim C10 counterexample: on a full group of 20 zero durations the
25th-percentile unit estimate is 0, and the int32 division
group[i] / unitDuration is a run-time panic (embedded as none), so the
token stage does not emit 20 · ⌊20/20⌋ = 20 tokens for those 20
durations. -/
theorem token_stage_zero_unit_no_tokens :
    getTokenPipe (List.replicate 20 (0 : Int)) = none ∧
    (getTokenPipe (List.replicate 20 (0 : Int))).map List.length ≠
      some (20 * ((List.replicate 20 (0 : Int)).length / 20)) := by
  constructor <;> decide

/-- Claim C10 (amended): for every finite input, the quantizer emits
exactly 100 · ⌊n/100⌋ booleans for n amplitudes (a trailing window of
fewer than 100 amplitudes emits nothing), and whenever the token stage
completes without the zero-unit division panic it emits exactly
20 · ⌊m/20⌋ tokens for m durations (a trailing group of fewer than 20
durations emits nothing). -/
theorem pipeline_buffer_lengths (amps ds : List Int) (ts : List token)
    (h : getTokenPipe ds = some ts) :
    (quantizer amps).length = 100 * (amps.length / 100) ∧
    ts.length = 20 * (ds.length / 20) := by
  constructor
  · have h0 := quantizerAux_length amps [] (by simp)
    simpa [quantizer] using h0
  · have h1 : getTokenPipeAux [] ds = some ts := h
    have h2 := getTokenPipeAux_length ds [] ts (by simp) h1
    simpa using h2

set_option maxRecDepth 8000 in
/-- Witness for pipeline_buffer_lengths: 150 amplitudes and a full
group of 20 unit durations. -/
theorem pipeline_buffer_lengths_witness :
    (quantizer (List.replicate 150 (5 : Int))).length =
        100 * ((List.replicate 150 (5 : Int)).length / 100) ∧
    ([token.dit, token.noOp, token.dit, token.noOp, token.dit, token.noOp,
        token.dit, token.noOp, token.dit, token.noOp, token.dit, token.noOp,
        token.dit, token.noOp, token.dit, token.noOp, token.dit, token.noOp,
        token.dit, token.noOp] : List token).length =
      20 * ((List.replicate 20 (1 : Int)).length / 20) :=
  pipeline_buffer_lengths (List.replicate 150 5) (List.replicate 20 1) _ (by decide)

/-- One iteration of the rms accumulation loop (cw-decode.go lines
46-50): add the sample to the running int32 sum and its square to the
running int32 sum of squares, every operation wrapping in int32. -/
def rmsStep (s : Int × Int) (v : Int) : Int × Int :=
  (wrap32 (s.1 + v), wrap32 (s.2 + wrap32 (v * v)))

/-- rms (cw-decode.go lines 43-54): accumulate sum and squaresum over
the chunk, take the truncated int32 means, and return the square root
of meanOfSquares - mean².  The length cast int32(len(audiovals)) wraps;
when it is 0 (empty chunk, or a pathological length that is a multiple
of 2^32) the division panics, embedded as none.  When the computed
int32 variance is nonnegative, float64 conversion is exact and
math.Sqrt is correctly rounded, so truncating the root back to int32
yields exactly the integer square root, embedded via Nat.sqrt; when the
variance is negative (possible only through int32 overflow), math.Sqrt
returns NaN and the int32 conversion of NaN is implementation-defined
in Go, embedded as none. -/
def rms (audiovals : List Int) : Option Int :=
  let sums := audiovals.foldl rmsStep (0, 0)
  let n := wrap32 audiovals.length
  if n = 0 then none
  else
    let mean := div32 sums.1 n
    let meanOfSquares := div32 sums.2 n
    let variance := wrap32 (meanOfSquares - wrap32 (mean * mean))
    if 0 ≤ variance then some (Int.ofNat (Nat.sqrt variance.toNat)) else none

/-- Claim C9 counterexample: the chunk [0, 1] has rms 0 even though its
samples are not all identical — the truncated integer mean of [0, 1] is
0 and the truncated mean of squares is 0, so the computed variance is 0
(and even in exact arithmetic the variance 1/4 would truncate to 0). -/
theorem rms_zero_on_distinct_samples :
    rms [0, 1] = some 0 ∧ ¬(∀ v ∈ ([0, 1] : List Int), v = 0) := by
  constructor <;> decide

/-- The accumulation loop over a chunk of identical samples computes
the exact sums as long as they stay inside int32. -/
lemma rmsStep_foldl_replicate (c : Int) : ∀ (k : Nat) (a b : Int),
    0 ≤ b →
    |a| + (k : Int) * |c| < 2 ^ 31 →
    b + (k : Int) * (c * c) < 2 ^ 31 →
    (List.replicate k c).foldl rmsStep (a, b) =
      (a + (k : Int) * c, b + (k : Int) * (c * c)) := by
  intro k
  induction k with
  | zero =>
    intro a b _ _ _
    simp
  | succ k ih =>
    intro a b hb ha hb2
    have hk : (0 : Int) ≤ (k : Int) := Int.natCast_nonneg k
    have hcc : (0 : Int) ≤ c * c := mul_self_nonneg c
    have hc0 : (0 : Int) ≤ |c| := abs_nonneg c
    have ha0 : (0 : Int) ≤ |a| := abs_nonneg a
    push_cast at ha hb2 ⊢
    have hkcc : (0 : Int) ≤ (k : Int) * (c * c) := mul_nonneg hk hcc
    have hkc : (0 : Int) ≤ (k : Int) * |c| := mul_nonneg hk hc0
    have hw1 : wrap32 (c * c) = c * c := by
      apply wrap32_eq_self <;> nlinarith
    have hw2 : wrap32 (b + c * c) = b + c * c := by
      apply wrap32_eq_self <;> nlinarith
    have hw3 : wrap32 (a + c) = a + c := by
      have h1 := le_abs_self a
      have h2 := le_abs_self c
      have h3 := neg_abs_le a
      have h4 := neg_abs_le c
      apply wrap32_eq_self <;> nlinarith
    rw [List.replicate_succ, List.foldl_cons]
    have hstep : rmsStep (a, b) c = (a + c, b + c * c) := by
      simp only [rmsStep, hw1, hw2, hw3]
    rw [hstep]
    have habs : |a + c| ≤ |a| + |c| := abs_add a c
    rw [ih (a + c) (b + c * c) (by nlinarith) (by nlinarith) (by nlinarith)]
    simp only [Prod.mk.injEq]
    constructor <;> ring

/-- Claim C9 (amended): rms never returns a negative value (a
negative computed variance means the square root is NaN and the result
implementation-defined, embedded as none); and on a non-empty chunk of
identical samples whose count and magnitude keep every intermediate
int32 computation from overflowing, it returns 0.  The converse of the
zero case is false — see the counterexample [0, 1]. -/
theorem rms_nonneg_and_zero_on_identical (chunk : List Int) (hne : chunk ≠ []) :
    (∀ r, rms chunk = some r → 0 ≤ r) ∧
    (∀ (n : Nat) (c : Int), chunk = List.replicate n c →
      (n : Int) * (c * c) < 2 ^ 31 → (n : Int) < 2 ^ 31 →
      rms chunk = some 0) := by
  constructor
  · intro r h
    unfold rms at h
    dsimp only at h
    split_ifs at h with h1 h2
    simp only [Option.some.injEq] at h
    rw [← h]
    exact Int.ofNat_nonneg _
  · intro n c hrep hbound hn
    subst hrep
    have hn1 : 1 ≤ n := by
      cases n with
      | zero => simp at hne
      | succ m => omega
    have hn1i : (1 : Int) ≤ (n : Int) := by exact_mod_cast hn1
    have hcc : (0 : Int) ≤ c * c := mul_self_nonneg c
    have hccn : c * c ≤ (n : Int) * (c * c) := le_mul_of_one_le_left hcc hn1i
    have hcabs : |c| ≤ c * c ∨ c = 0 := by
      by_cases hc : c = 0
      · right; exact hc
      · left
        have h1 : (1 : Int) ≤ |c| := Int.one_le_abs (by omega)
        calc |c| = 1 * |c| := (one_mul _).symm
          _ ≤ |c| * |c| := by
              apply mul_le_mul_of_nonneg_right h1 (abs_nonneg c)
          _ = c * c := abs_mul_abs_self c
    have hfold : (List.replicate n c).foldl rmsStep (0, 0) =
        ((n : Int) * c, (n : Int) * (c * c)) := by
      have h := rmsStep_foldl_replicate c n 0 0 le_rfl ?_ ?_
      · simpa using h
      · rcases hcabs with hle | h0
        · have : (n : Int) * |c| ≤ (n : Int) * (c * c) :=
            mul_le_mul_of_nonneg_left hle (by omega)
          simp only [abs_zero]
          omega
        · subst h0
          simp only [abs_zero, mul_zero]
          norm_num
      · simpa using hbound
    unfold rms
    dsimp only
    rw [hfold, List.length_replicate]
    have hwn : wrap32 (n : Int) = (n : Int) := wrap32_eq_self (by omega) hn
    rw [hwn, if_neg (by omega)]
    have hnz : (n : Int) ≠ 0 := by omega
    have hcw : wrap32 c = c := by
      rcases hcabs with hle | h0
      · have h1 := le_abs_self c
        have h2 := neg_abs_le c
        apply wrap32_eq_self <;> nlinarith
      · subst h0; decide
    have hccw : wrap32 (c * c) = c * c := by
      apply wrap32_eq_self <;> nlinarith
    have hmean : div32 ((n : Int) * c) (n : Int) = c := by
      unfold div32
      rw [Int.mul_tdiv_cancel_left _ hnz, hcw]
    have hmos : div32 ((n : Int) * (c * c)) (n : Int) = c * c := by
      unfold div32
      rw [Int.mul_tdiv_cancel_left _ hnz, hccw]
    rw [hmean, hmos, hccw, sub_self]
    have hw0 : wrap32 0 = 0 := by decide
    rw [hw0, if_pos le_rfl]
    simp

/-- Witness for rle_run_durations at the stream [false, true]. -/
theorem rle_run_durations_witness :
    (∀ r ∈ (getRlePipe [false, true]).tail, 0 < r.2) ∧
    (∀ r, (getRlePipe [false, true]).head? = some r →
      (r.2 = 0 ↔ ([false, true] : List Bool).head? = some true)) :=
  rle_run_durations [false, true] (by decide)

/-- Witness for rms_nonneg_and_zero_on_identical: two samples of 5. -/
theorem rms_identical_witness :
    rms (List.replicate 2 (5 : Int)) = some 0 :=
  (rms_nonneg_and_zero_on_identical (List.replicate 2 5) (by decide)).2 2 5 rfl
    (by norm_num) (by norm_num)
